import Mathlib

/-!
Verification development for the movement-model Streamlit visualization
(`streamlit_viz_output.py`).  The definitions below are a shallow embedding
of the script's computational core: the timestep join (lines 75-82), the
color-range computation (lines 84-94), the nearest-edge locator
(lines 127-145), the selection state update (lines 147-150) and the
empty-table guard (lines 43-45).
-/

namespace MovementModel

/-- A 2D point, either geographic (lon/lat) or planar coordinates. -/
structure Pt where
  x : ℝ
  y : ℝ
deriving Inhabited

/-- A row of the `edges` GeoDataFrame: an OBJECTID and a line geometry
given as the list of its vertices. -/
structure Edge where
  objectid : ℤ
  geom : List Pt
deriving Inhabited

/-- A row of the merged frame `t` (or `t_projected`): id, geometry, and
the count joined for the selected timestep. -/
structure Row where
  objectid : ℤ
  geom : List Pt
  count : ℚ
deriving Inhabited

/-- One row of the time-series table: association of column label
(an OBJECTID) to the count stored in that cell. -/
abbrev TimeRow := List (ℤ × ℚ)

/-- The `edge_time_series` table: rows indexed by timestamp. -/
abbrev TimeSeriesTable := List (ℚ × TimeRow)

/-- Exact-key lookup in an association list (pandas label indexing:
first row whose label equals the key). -/
def lookupKey {α β : Type} [DecidableEq α] (k : α) : List (α × β) → Option β
  | [] => none
  | q :: rest => if q.1 = k then some q.2 else lookupKey k rest

/-- Line 70 and line 75 of the source: `idx = time_values.get_loc(time_choice)`
followed by `row = edge_time_series.iloc[idx]` — the table row whose
timestamp label is the chosen time. -/
def rowFor (table : TimeSeriesTable) (timeChoice : ℚ) : TimeRow :=
  (lookupKey timeChoice table).getD []

/-- Lines 77-82: `edges.merge(row.rename("count"), left_on="OBJECTID",
right_index=True, how="left")` followed by `t["count"].fillna(0.0)`.
A left join against a uniquely-labelled row keeps one output row per edge,
taking the row's value at the edge's OBJECTID when that column exists,
else 0.0 after `fillna`. -/
def mergeCounts (edges : List Edge) (row : TimeRow) : List Row :=
  edges.map fun e => ⟨e.objectid, e.geom, (lookupKey e.objectid row).getD 0⟩

/-- The temporal slice: the per-segment `(OBJECTID, count)` pairs of the
merged frame at the chosen timestep. -/
def computeSlice (table : TimeSeriesTable) (edges : List Edge) (timeChoice : ℚ) :
    List (ℤ × ℚ) :=
  (mergeCounts edges (rowFor table timeChoice)).map fun r => (r.objectid, r.count)

/-- Lines 147-150: `if new_objid != current_objid:` update
`st.session_state.selected_objectid` and call `st.rerun()`.
Returns the new state and whether a rerun (refresh) was signalled. -/
def selectionStep (current : Option ℤ) (newObjid : ℤ) : Option ℤ × Bool :=
  if some newObjid = current then (current, false) else (some newObjid, true)

/-- Line 84: `np.log1p`, the map `x ↦ ln(1 + x)` applied elementwise. -/
noncomputable def log1p (x : ℝ) : ℝ := Real.log (1 + x)

/-- Line 84: the values the color scale is computed from --- the counts,
log1p-transformed when the `use_log1p` toggle is on. -/
noncomputable def valsOf (counts : List ℝ) (useLog1p : Bool) : List ℝ :=
  if useLog1p then counts.map log1p else counts

/-- Ascending sort of the values, as `np.quantile` performs internally. -/
noncomputable def sortedVals (l : List ℝ) : List ℝ := l.insertionSort (· ≤ ·)

/-- Minimum of a numpy array (line 91): fold of `min` over the values. -/
noncomputable def listMin : List ℝ → ℝ
  | [] => 0
  | x :: xs => xs.foldl min x

/-- Maximum of a numpy array (line 92): fold of `max` over the values. -/
noncomputable def listMax : List ℝ → ℝ
  | [] => 0
  | x :: xs => xs.foldl max x

/-- Linear interpolation into a sorted array at fractional position `h`:
`s[i] + (h - i) * (s[i+1] - s[i])` with `i = ⌊h⌋`, reading past-the-end
accesses as the left value (only reachable at `h = len - 1`). -/
noncomputable def interpSorted (s : List ℝ) (h : ℝ) : ℝ :=
  let i := (⌊h⌋).toNat
  let lo := s.getD i 0
  let hi := s.getD (i + 1) lo
  lo + (h - (i : ℝ)) * (hi - lo)

/-- Lines 88-89: `np.quantile(vals, p)` with the default linear
interpolation between order statistics, at position `p * (n - 1)` in the
ascending sort. -/
noncomputable def quantile (l : List ℝ) (p : ℝ) : ℝ :=
  interpSorted (sortedVals l) (p * ((l.length : ℝ) - 1))

/-- Lines 87-92: the color range before the degenerate correction ---
1st/99th percentiles when clipping, min/max otherwise. -/
noncomputable def rawRange (vals : List ℝ) (clip : Bool) : ℝ × ℝ :=
  if clip then (quantile vals (1 / 100), quantile vals (99 / 100))
  else (listMin vals, listMax vals)

/-- Lines 87-94 on given values: the raw range, then the degenerate
correction `if vmin == vmax: vmin = 0.0`. -/
noncomputable def rangeOfVals (vals : List ℝ) (clip : Bool) : ℝ × ℝ :=
  if (rawRange vals clip).1 = (rawRange vals clip).2
  then (0, (rawRange vals clip).2) else rawRange vals clip

/-- Lines 84-94 in full: optional log1p transform of the counts, then
clip-quantile or min/max range, then the degenerate correction. -/
noncomputable def computeRange (counts : List ℝ) (clip useLog1p : Bool) : ℝ × ℝ :=
  let vals := if useLog1p then counts.map log1p else counts
  let vmin := if clip then quantile vals (1 / 100) else listMin vals
  let vmax := if clip then quantile vals (99 / 100) else listMax vals
  if vmin = vmax then (0, vmax) else (vmin, vmax)

/-- Euclidean distance between two points of the plane. -/
noncomputable def ptDist (p a : Pt) : ℝ :=
  Real.sqrt ((p.x - a.x) * (p.x - a.x) + (p.y - a.y) * (p.y - a.y))

/-- Euclidean distance from `p` to the closed segment from `a` to `b`:
distance to the projection of `p` onto the segment, clamped to it, so
interior points of the segment count, not only endpoints. -/
noncomputable def ptSegDist (p a b : Pt) : ℝ :=
  let dx := b.x - a.x
  let dy := b.y - a.y
  let len2 := dx * dx + dy * dy
  if len2 = 0 then ptDist p a
  else
    let t := ((p.x - a.x) * dx + (p.y - a.y) * dy) / len2
    let tc := max 0 (min 1 t)
    ptDist p ⟨a.x + tc * dx, a.y + tc * dy⟩

/-- Distance from a point to a LineString given by its vertex list: the
minimum over the consecutive segments, as `geometry.distance` computes. -/
noncomputable def lineDist (p : Pt) : List Pt → ℝ
  | [] => 0
  | [a] => ptDist p a
  | [a, b] => ptSegDist p a b
  | a :: b :: c :: rest => min (ptSegDist p a b) (lineDist p (b :: c :: rest))

/-- Line 136: the Series of distances from the projected click point to
every row geometry of `t_projected`, in row (label) order. -/
noncomputable def distancesTo (p : Pt) (rows : List Row) : List ℝ :=
  rows.map fun r => lineDist p r.geom

/-- Scan underlying `Series.idxmin`: carries the current position, the
best label and the best value; a strict improvement moves the label, so
ties keep the earliest one. -/
def idxminGo {α : Type} [LinearOrder α] : List α → ℕ → ℕ → α → ℕ
  | [], _, bi, _ => bi
  | v :: vs, i, bi, bv =>
      if v < bv then idxminGo vs (i + 1) i v else idxminGo vs (i + 1) bi bv

/-- Line 139: `distances.idxmin()` --- the label of the first occurrence
of the minimum; pandas raises ValueError on an empty series, modelled as
`none`. -/
def idxmin {α : Type} [LinearOrder α] : List α → Option ℕ
  | [] => none
  | v :: vs => some (idxminGo vs 1 0 v)

/-- Lines 136-145: nearest-edge lookup against rows whose geometries are
already planar: the OBJECTID of the row labelled `distances.idxmin()`. -/
noncomputable def locateNearest (p : Pt) (rows : List Row) : Option ℤ :=
  (idxmin (distancesTo p rows)).bind fun i => (rows[i]?).map Row.objectid

/-- The target planar CRS string passed to both `to_crs` calls
(lines 30 and 132). -/
def planarCRS : String := "EPSG:2240"

/-- Line 30: `edges.to_crs("EPSG:2240")`; the CRS transform supplied by
the geospatial library is abstracted as a function family indexed by the
target-CRS string. -/
def edgesProjected (toCRS : String → Pt → Pt) (edges : List Edge) : List Edge :=
  edges.map fun e => ⟨e.objectid, e.geom.map (toCRS planarCRS)⟩

/-- Lines 127-145 end to end: build the click point from `(lon, lat)`,
project it to EPSG:2240, measure distances to the rows of the projected
merged frame `t_projected`, take `idxmin`, and read the OBJECTID off the
unprojected merged frame `t` at that label. -/
noncomputable def locateNearestPipeline (toCRS : String → Pt → Pt) (edges : List Edge)
    (row : TimeRow) (lon lat : ℝ) : Option ℤ :=
  let t := mergeCounts edges row
  let tProjected := mergeCounts (edgesProjected toCRS edges) row
  let clickedProjected := toCRS planarCRS ⟨lon, lat⟩
  let distances := distancesTo clickedProjected tProjected
  (idxmin distances).bind fun i => (t[i]?).map Row.objectid

/-- The observable outcome of one script run: either the `st.stop()` halt
of line 45, or a full render carrying the computed slice, the color range
and the resulting selection. -/
inductive Outcome where
  | halted : Outcome
  | rendered : List (ℤ × ℚ) → ℝ × ℝ → Option ℤ → Outcome

/-- One synchronous run of the script body: the zero-row guard of lines
43-45 comes before the merge, the range computation, the click handling
and the render. -/
noncomputable def runSession (toCRS : String → Pt → Pt) (table : TimeSeriesTable)
    (edges : List Edge) (timeChoice : ℚ) (clip lg : Bool)
    (click : Option (ℝ × ℝ)) (state : Option ℤ) : Outcome :=
  if table = [] then Outcome.halted
  else
    let row := rowFor table timeChoice
    let t := mergeCounts edges row
    let counts : List ℝ := t.map fun r => ((r.count : ℚ) : ℝ)
    let range := computeRange counts clip lg
    let sel :=
      match click with
      | none => state
      | some c =>
        match locateNearestPipeline toCRS edges row c.1 c.2 with
        | none => state
        | some objid => (selectionStep state objid).1
    Outcome.rendered (t.map fun r => (r.objectid, r.count)) range sel

section SliceLemmas

lemma lookupKey_eq_some_of_mem_nodup {α β : Type} [DecidableEq α]
    {l : List (α × β)} {k : α} {v : β}
    (hmem : (k, v) ∈ l) (hnd : (l.map Prod.fst).Nodup) :
    lookupKey k l = some v := by
  induction l with
  | nil => cases hmem
  | cons q rest ih =>
    simp only [List.map_cons, List.nodup_cons] at hnd
    rcases List.mem_cons.mp hmem with h | h
    · subst h
      simp [lookupKey]
    · have hne : q.1 ≠ k := by
        intro he
        exact hnd.1 (he ▸ (List.mem_map.mpr ⟨(k, v), h, rfl⟩))
      simp only [lookupKey, if_neg hne]
      exact ih h hnd.2

lemma lookupKey_eq_none_of_not_mem {α β : Type} [DecidableEq α]
    {l : List (α × β)} {k : α}
    (h : k ∉ l.map Prod.fst) :
    lookupKey k l = none := by
  induction l with
  | nil => rfl
  | cons q rest ih =>
    simp only [List.map_cons, List.mem_cons, not_or] at h
    simp only [lookupKey, if_neg (Ne.symm h.1)]
    exact ih h.2

end SliceLemmas

lemma rowFor_eq {table : TimeSeriesTable} {τ : ℚ} {r : TimeRow}
    (hmem : (τ, r) ∈ table) (htu : (table.map Prod.fst).Nodup) :
    rowFor table τ = r := by
  unfold rowFor
  rw [lookupKey_eq_some_of_mem_nodup hmem htu]
  rfl

section RangeLemmas

lemma computeRange_eq (counts : List ℝ) (clip lg : Bool) :
    computeRange counts clip lg = rangeOfVals (valsOf counts lg) clip := by
  cases clip <;> cases lg <;> simp [computeRange, rangeOfVals, rawRange, valsOf]

lemma sortedVals_sorted (l : List ℝ) : (sortedVals l).Sorted (· ≤ ·) :=
  List.sorted_insertionSort _ l

lemma sortedVals_perm (l : List ℝ) : (sortedVals l).Perm l :=
  List.perm_insertionSort _ l

lemma sortedVals_length (l : List ℝ) : (sortedVals l).length = l.length :=
  (sortedVals_perm l).length_eq

lemma mem_sortedVals {l : List ℝ} {x : ℝ} : x ∈ sortedVals l ↔ x ∈ l :=
  (sortedVals_perm l).mem_iff

lemma foldl_min_le_init (xs : List ℝ) (a : ℝ) : xs.foldl min a ≤ a := by
  induction xs generalizing a with
  | nil => exact le_refl a
  | cons x xs ih => exact le_trans (ih (min a x)) (min_le_left a x)

lemma foldl_min_le_mem {xs : List ℝ} {x : ℝ} (h : x ∈ xs) (a : ℝ) :
    xs.foldl min a ≤ x := by
  induction xs generalizing a with
  | nil => cases h
  | cons y ys ih =>
    rcases List.mem_cons.mp h with rfl | h'
    · exact le_trans (foldl_min_le_init ys (min a x)) (min_le_right a x)
    · exact ih h' (min a y)

lemma foldl_min_eq_or_mem (xs : List ℝ) (a : ℝ) :
    xs.foldl min a = a ∨ xs.foldl min a ∈ xs := by
  induction xs generalizing a with
  | nil => exact Or.inl rfl
  | cons y ys ih =>
    rcases ih (min a y) with h | h
    · rcases min_choice a y with hc | hc
      · exact Or.inl (by rw [List.foldl_cons, h, hc])
      · exact Or.inr (by rw [List.foldl_cons, h, hc]; exact List.mem_cons_self y ys)
    · exact Or.inr (List.mem_cons_of_mem y h)

lemma foldl_max_init_le (xs : List ℝ) (a : ℝ) : a ≤ xs.foldl max a := by
  induction xs generalizing a with
  | nil => exact le_refl a
  | cons x xs ih => exact le_trans (le_max_left a x) (ih (max a x))

lemma mem_le_foldl_max {xs : List ℝ} {x : ℝ} (h : x ∈ xs) (a : ℝ) :
    x ≤ xs.foldl max a := by
  induction xs generalizing a with
  | nil => cases h
  | cons y ys ih =>
    rcases List.mem_cons.mp h with rfl | h'
    · exact le_trans (le_max_right a x) (foldl_max_init_le ys (max a x))
    · exact ih h' (max a y)

lemma foldl_max_eq_or_mem (xs : List ℝ) (a : ℝ) :
    xs.foldl max a = a ∨ xs.foldl max a ∈ xs := by
  induction xs generalizing a with
  | nil => exact Or.inl rfl
  | cons y ys ih =>
    rcases ih (max a y) with h | h
    · rcases max_choice a y with hc | hc
      · exact Or.inl (by rw [List.foldl_cons, h, hc])
      · exact Or.inr (by rw [List.foldl_cons, h, hc]; exact List.mem_cons_self y ys)
    · exact Or.inr (List.mem_cons_of_mem y h)

lemma listMin_le_mem {l : List ℝ} {x : ℝ} (h : x ∈ l) : listMin l ≤ x := by
  cases l with
  | nil => cases h
  | cons y ys =>
    rcases List.mem_cons.mp h with rfl | h'
    · exact foldl_min_le_init ys x
    · exact foldl_min_le_mem h' y

lemma listMin_mem {l : List ℝ} (h : l ≠ []) : listMin l ∈ l := by
  cases l with
  | nil => exact absurd rfl h
  | cons y ys =>
    rcases foldl_min_eq_or_mem ys y with he | hm
    · rw [listMin, he]; exact List.mem_cons_self y ys
    · exact List.mem_cons_of_mem y hm

lemma mem_le_listMax {l : List ℝ} {x : ℝ} (h : x ∈ l) : x ≤ listMax l := by
  cases l with
  | nil => cases h
  | cons y ys =>
    rcases List.mem_cons.mp h with rfl | h'
    · exact foldl_max_init_le ys x
    · exact mem_le_foldl_max h' y

lemma listMax_mem {l : List ℝ} (h : l ≠ []) : listMax l ∈ l := by
  cases l with
  | nil => exact absurd rfl h
  | cons y ys =>
    rcases foldl_max_eq_or_mem ys y with he | hm
    · rw [listMax, he]; exact List.mem_cons_self y ys
    · exact List.mem_cons_of_mem y hm

lemma listMin_le_listMax {l : List ℝ} (h : l ≠ []) : listMin l ≤ listMax l :=
  le_trans (listMin_le_mem (listMax_mem h)) (le_refl _)

lemma listMin_const {l : List ℝ} {c : ℝ} (h : l ≠ []) (hall : ∀ x ∈ l, x = c) :
    listMin l = c :=
  hall _ (listMin_mem h)

lemma listMax_const {l : List ℝ} {c : ℝ} (h : l ≠ []) (hall : ∀ x ∈ l, x = c) :
    listMax l = c :=
  hall _ (listMax_mem h)

lemma toNat_floor_cast {h : ℝ} (h0 : 0 ≤ h) :
    (((⌊h⌋).toNat : ℕ) : ℝ) = ((⌊h⌋ : ℤ) : ℝ) := by
  norm_cast
  exact Int.toNat_of_nonneg (Int.floor_nonneg.mpr h0)

lemma floor_pos_facts {s : List ℝ} {h : ℝ} (h0 : 0 ≤ h)
    (hle : h ≤ (s.length : ℝ) - 1) :
    ((⌊h⌋).toNat : ℝ) ≤ h ∧ h < ((⌊h⌋).toNat : ℝ) + 1 ∧ (⌊h⌋).toNat < s.length := by
  have hc := toNat_floor_cast h0
  refine ⟨?_, ?_, ?_⟩
  · rw [hc]; exact Int.floor_le h
  · rw [hc]; exact Int.lt_floor_add_one h
  · have h1 : ((⌊h⌋).toNat : ℝ) < (s.length : ℝ) := by
      rw [hc]
      have := Int.floor_le h
      linarith
    exact_mod_cast h1

lemma getD_mem_of_lt {s : List ℝ} {i : ℕ} (hi : i < s.length) (d : ℝ) :
    s.getD i d ∈ s := by
  rw [List.getD_eq_getElem s d hi]
  exact List.getElem_mem hi

lemma sorted_getD_le {s : List ℝ} (hs : s.Sorted (· ≤ ·)) {i j : ℕ}
    (hij : i ≤ j) (hj : j < s.length) (d d' : ℝ) :
    s.getD i d ≤ s.getD j d' := by
  have hi : i < s.length := Nat.lt_of_le_of_lt hij hj
  rw [List.getD_eq_getElem s d hi, List.getD_eq_getElem s d' hj]
  rcases Nat.lt_or_ge i j with hlt | hge
  · have := hs.rel_get_of_lt (a := ⟨i, hi⟩) (b := ⟨j, hj⟩) hlt
    simpa using this
  · have heq : i = j := Nat.le_antisymm hij hge
    subst heq
    exact le_refl _

lemma interpSorted_eq (s : List ℝ) (h : ℝ) :
    interpSorted s h =
      s.getD (⌊h⌋).toNat 0 + (h - ((⌊h⌋).toNat : ℝ)) *
        (s.getD ((⌊h⌋).toNat + 1) (s.getD (⌊h⌋).toNat 0) - s.getD (⌊h⌋).toNat 0) := rfl

lemma interpSorted_bounds {s : List ℝ} {h m M : ℝ}
    (h0 : 0 ≤ h) (hle : h ≤ (s.length : ℝ) - 1)
    (hm : ∀ x ∈ s, m ≤ x) (hM : ∀ x ∈ s, x ≤ M) :
    m ≤ interpSorted s h ∧ interpSorted s h ≤ M := by
  obtain ⟨hif, hif1, hin⟩ := floor_pos_facts h0 hle
  have hlomem : s.getD (⌊h⌋).toNat 0 ∈ s := getD_mem_of_lt hin 0
  have hlom : m ≤ s.getD (⌊h⌋).toNat 0 := hm _ hlomem
  have hloM : s.getD (⌊h⌋).toNat 0 ≤ M := hM _ hlomem
  have hhimm : m ≤ s.getD ((⌊h⌋).toNat + 1) (s.getD (⌊h⌋).toNat 0) ∧
      s.getD ((⌊h⌋).toNat + 1) (s.getD (⌊h⌋).toNat 0) ≤ M := by
    by_cases hcc : (⌊h⌋).toNat + 1 < s.length
    · have hmm := getD_mem_of_lt hcc (s.getD (⌊h⌋).toNat 0)
      exact ⟨hm _ hmm, hM _ hmm⟩
    · rw [List.getD_eq_default s _ (Nat.le_of_not_lt hcc)]
      exact ⟨hlom, hloM⟩
  rw [interpSorted_eq]
  have hf0 : 0 ≤ h - ((⌊h⌋).toNat : ℝ) := by linarith
  have hf1 : h - ((⌊h⌋).toNat : ℝ) ≤ 1 := by linarith
  constructor
  · nlinarith [mul_nonneg hf0 (sub_nonneg.mpr hhimm.1),
      mul_nonneg (sub_nonneg.mpr hf1) (sub_nonneg.mpr hlom)]
  · nlinarith [mul_nonneg hf0 (sub_nonneg.mpr hhimm.2),
      mul_nonneg (sub_nonneg.mpr hf1) (sub_nonneg.mpr hloM)]

lemma interpSorted_mono {s : List ℝ} (hs : s.Sorted (· ≤ ·)) {h1 h2 : ℝ}
    (h0 : 0 ≤ h1) (h12 : h1 ≤ h2) (hle : h2 ≤ (s.length : ℝ) - 1) :
    interpSorted s h1 ≤ interpSorted s h2 := by
  have h0' : 0 ≤ h2 := le_trans h0 h12
  have hle1 : h1 ≤ (s.length : ℝ) - 1 := le_trans h12 hle
  obtain ⟨ha1, hb1, hn1⟩ := floor_pos_facts h0 hle1
  obtain ⟨ha2, hb2, hn2⟩ := floor_pos_facts h0' hle
  have hii : (⌊h1⌋).toNat ≤ (⌊h2⌋).toNat :=
    Int.toNat_le_toNat (Int.floor_le_floor h12)
  rw [interpSorted_eq, interpSorted_eq]
  have hadj2 : s.getD (⌊h2⌋).toNat 0 ≤
      s.getD ((⌊h2⌋).toNat + 1) (s.getD (⌊h2⌋).toNat 0) := by
    by_cases hcc : (⌊h2⌋).toNat + 1 < s.length
    · exact sorted_getD_le hs (Nat.le_succ _) hcc 0 _
    · rw [List.getD_eq_default s _ (Nat.le_of_not_lt hcc)]
  rcases Nat.lt_or_ge (⌊h1⌋).toNat (⌊h2⌋).toNat with hlt | hge
  · have hi1succ : (⌊h1⌋).toNat + 1 ≤ (⌊h2⌋).toNat := hlt
    have hi1succ_lt : (⌊h1⌋).toNat + 1 < s.length := Nat.lt_of_le_of_lt hi1succ hn2
    have hadj1 : s.getD (⌊h1⌋).toNat 0 ≤
        s.getD ((⌊h1⌋).toNat + 1) (s.getD (⌊h1⌋).toNat 0) :=
      sorted_getD_le hs (Nat.le_succ _) hi1succ_lt 0 _
    have hq1le : s.getD (⌊h1⌋).toNat 0 + (h1 - ((⌊h1⌋).toNat : ℝ)) *
        (s.getD ((⌊h1⌋).toNat + 1) (s.getD (⌊h1⌋).toNat 0) - s.getD (⌊h1⌋).toNat 0) ≤
        s.getD ((⌊h1⌋).toNat + 1) (s.getD (⌊h1⌋).toNat 0) := by
      have hf1 : h1 - ((⌊h1⌋).toNat : ℝ) ≤ 1 := by linarith
      nlinarith [mul_nonneg (sub_nonneg.mpr hf1) (sub_nonneg.mpr hadj1)]
    have hmid : s.getD ((⌊h1⌋).toNat + 1) (s.getD (⌊h1⌋).toNat 0) ≤
        s.getD (⌊h2⌋).toNat 0 := sorted_getD_le hs hi1succ hn2 _ 0
    have hq2ge : s.getD (⌊h2⌋).toNat 0 ≤ s.getD (⌊h2⌋).toNat 0 +
        (h2 - ((⌊h2⌋).toNat : ℝ)) *
        (s.getD ((⌊h2⌋).toNat + 1) (s.getD (⌊h2⌋).toNat 0) - s.getD (⌊h2⌋).toNat 0) := by
      have hf0 : 0 ≤ h2 - ((⌊h2⌋).toNat : ℝ) := by linarith
      nlinarith [mul_nonneg hf0 (sub_nonneg.mpr hadj2)]
    linarith
  · have heq : (⌊h1⌋).toNat = (⌊h2⌋).toNat := Nat.le_antisymm hii hge
    rw [heq]
    nlinarith [mul_le_mul_of_nonneg_right
      (sub_le_sub_right h12 (((⌊h2⌋).toNat : ℕ) : ℝ)) (sub_nonneg.mpr hadj2)]

lemma interpSorted_const {s : List ℝ} {c h : ℝ} (hall : ∀ x ∈ s, x = c)
    (h0 : 0 ≤ h) (hle : h ≤ (s.length : ℝ) - 1) :
    interpSorted s h = c := by
  obtain ⟨hif, hif1, hin⟩ := floor_pos_facts h0 hle
  have hlo : s.getD (⌊h⌋).toNat 0 = c := hall _ (getD_mem_of_lt hin 0)
  have hhi : s.getD ((⌊h⌋).toNat + 1) (s.getD (⌊h⌋).toNat 0) = c := by
    by_cases hcc : (⌊h⌋).toNat + 1 < s.length
    · exact hall _ (getD_mem_of_lt hcc _)
    · rw [List.getD_eq_default s _ (Nat.le_of_not_lt hcc)]
      exact hlo
  rw [interpSorted_eq, hhi, hlo]
  ring

lemma length_cast_nonneg {l : List ℝ} (hl : l ≠ []) :
    (0 : ℝ) ≤ (l.length : ℝ) - 1 := by
  have h1 : 0 < l.length := List.length_pos.mpr hl
  have h2 : (1 : ℝ) ≤ (l.length : ℝ) := by exact_mod_cast h1
  linarith

lemma sortedVals_ne_nil {l : List ℝ} (hl : l ≠ []) : sortedVals l ≠ [] := by
  intro he
  apply hl
  have hlen := sortedVals_length l
  rw [he] at hlen
  exact List.length_eq_zero.mp hlen.symm

lemma quantile_bounds {l : List ℝ} {p : ℝ} (hl : l ≠ []) (hp0 : 0 ≤ p) (hp1 : p ≤ 1) :
    listMin l ≤ quantile l p ∧ quantile l p ≤ listMax l := by
  have hn1 := length_cast_nonneg hl
  have h0 : 0 ≤ p * ((l.length : ℝ) - 1) := mul_nonneg hp0 hn1
  have hle : p * ((l.length : ℝ) - 1) ≤ ((sortedVals l).length : ℝ) - 1 := by
    rw [sortedVals_length]
    calc p * ((l.length : ℝ) - 1) ≤ 1 * ((l.length : ℝ) - 1) :=
          mul_le_mul_of_nonneg_right hp1 hn1
      _ = (l.length : ℝ) - 1 := one_mul _
  exact interpSorted_bounds h0 hle
    (fun x hx => listMin_le_mem (mem_sortedVals.mp hx))
    (fun x hx => mem_le_listMax (mem_sortedVals.mp hx))

lemma quantile_mono_p {l : List ℝ} {p q : ℝ} (hl : l ≠ []) (hp0 : 0 ≤ p)
    (hpq : p ≤ q) (hq1 : q ≤ 1) : quantile l p ≤ quantile l q := by
  have hn1 := length_cast_nonneg hl
  show interpSorted (sortedVals l) (p * ((l.length : ℝ) - 1)) ≤
      interpSorted (sortedVals l) (q * ((l.length : ℝ) - 1))
  apply interpSorted_mono (sortedVals_sorted l) (mul_nonneg hp0 hn1)
    (mul_le_mul_of_nonneg_right hpq hn1)
  rw [sortedVals_length]
  calc q * ((l.length : ℝ) - 1) ≤ 1 * ((l.length : ℝ) - 1) :=
        mul_le_mul_of_nonneg_right hq1 hn1
    _ = (l.length : ℝ) - 1 := one_mul _

lemma quantile_const {l : List ℝ} {c p : ℝ} (hl : l ≠ []) (hall : ∀ x ∈ l, x = c)
    (hp0 : 0 ≤ p) (hp1 : p ≤ 1) : quantile l p = c := by
  have hn1 := length_cast_nonneg hl
  show interpSorted (sortedVals l) (p * ((l.length : ℝ) - 1)) = c
  apply interpSorted_const (fun x hx => hall _ (mem_sortedVals.mp hx))
    (mul_nonneg hp0 hn1)
  rw [sortedVals_length]
  calc p * ((l.length : ℝ) - 1) ≤ 1 * ((l.length : ℝ) - 1) :=
        mul_le_mul_of_nonneg_right hp1 hn1
    _ = (l.length : ℝ) - 1 := one_mul _

lemma valsOf_ne_nil {counts : List ℝ} {lg : Bool} (h : counts ≠ []) :
    valsOf counts lg ≠ [] := by
  cases lg <;> simp [valsOf, h]

lemma rawRange_const {vals : List ℝ} {c : ℝ} (hne : vals ≠ [])
    (hall : ∀ x ∈ vals, x = c) (clip : Bool) : rawRange vals clip = (c, c) := by
  have e1 : quantile vals (1 / 100) = c :=
    quantile_const hne hall (by norm_num) (by norm_num)
  have e2 : quantile vals (99 / 100) = c :=
    quantile_const hne hall (by norm_num) (by norm_num)
  have em : listMin vals = c := listMin_const hne hall
  have eM : listMax vals = c := listMax_const hne hall
  cases clip with
  | false =>
    show (if false = true then (quantile vals (1 / 100), quantile vals (99 / 100))
        else (listMin vals, listMax vals)) = (c, c)
    rw [if_neg (by simp), em, eM]
  | true =>
    show (if true = true then (quantile vals (1 / 100), quantile vals (99 / 100))
        else (listMin vals, listMax vals)) = (c, c)
    rw [if_pos rfl, e1, e2]

lemma sortedVals_singleton (x : ℝ) : sortedVals [x] = [x] := by
  simp [sortedVals, List.insertionSort, List.orderedInsert]

lemma quantile_singleton (x p : ℝ) : quantile [x] p = x := by
  show interpSorted (sortedVals [x]) (p * ((([x] : List ℝ).length : ℝ) - 1)) = x
  rw [sortedVals_singleton]
  have h1 : p * ((([x] : List ℝ).length : ℝ) - 1) = 0 := by
    simp
  rw [h1, interpSorted_eq]
  norm_num

lemma rawRange_false (vals : List ℝ) :
    rawRange vals false = (listMin vals, listMax vals) := rfl

lemma rawRange_true (vals : List ℝ) :
    rawRange vals true = (quantile vals (1 / 100), quantile vals (99 / 100)) := rfl

end RangeLemmas

section LocatorLemmas

lemma idxminGo_spec {α : Type} [LinearOrder α] (d : α) :
    ∀ (vs : List α) (acc : List α) (bi : ℕ),
      bi < acc.length →
      (∀ j, j < acc.length → acc.getD bi d ≤ acc.getD j d) →
      (∀ j, j < bi → acc.getD bi d < acc.getD j d) →
      idxminGo vs acc.length bi (acc.getD bi d) < (acc ++ vs).length ∧
      (∀ j, j < (acc ++ vs).length →
        (acc ++ vs).getD (idxminGo vs acc.length bi (acc.getD bi d)) d ≤
          (acc ++ vs).getD j d) ∧
      (∀ j, j < idxminGo vs acc.length bi (acc.getD bi d) →
        (acc ++ vs).getD (idxminGo vs acc.length bi (acc.getD bi d)) d <
          (acc ++ vs).getD j d) := by
  intro vs
  induction vs with
  | nil =>
    intro acc bi hbi hmin hfirst
    simp only [idxminGo, List.append_nil]
    exact ⟨hbi, hmin, hfirst⟩
  | cons v vs ih =>
    intro acc bi hbi hmin hfirst
    have hacc1 : (acc ++ [v]).length = acc.length + 1 := by simp
    have hgetv : (acc ++ [v]).getD acc.length d = v := by
      rw [List.getD_append_right acc [v] d acc.length (le_refl _)]
      simp
    have hget_lt : ∀ j, j < acc.length → (acc ++ [v]).getD j d = acc.getD j d :=
      fun j hj => List.getD_append acc [v] d j hj
    have happ : acc ++ v :: vs = (acc ++ [v]) ++ vs := by
      rw [List.append_assoc]
      rfl
    by_cases hlt : v < acc.getD bi d
    · have hrw : idxminGo (v :: vs) acc.length bi (acc.getD bi d) =
          idxminGo vs (acc ++ [v]).length acc.length ((acc ++ [v]).getD acc.length d) := by
        rw [hacc1, hgetv]
        simp only [idxminGo, if_pos hlt]
      have hbi' : acc.length < (acc ++ [v]).length := by
        rw [hacc1]
        exact Nat.lt_succ_self _
      have hmin' : ∀ j, j < (acc ++ [v]).length →
          (acc ++ [v]).getD acc.length d ≤ (acc ++ [v]).getD j d := by
        intro j hj
        rw [hgetv]
        rw [hacc1] at hj
        rcases Nat.lt_succ_iff_lt_or_eq.mp hj with hj' | rfl
        · rw [hget_lt j hj']
          exact le_of_lt (lt_of_lt_of_le hlt (hmin j hj'))
        · rw [hgetv]
      have hfirst' : ∀ j, j < acc.length →
          (acc ++ [v]).getD acc.length d < (acc ++ [v]).getD j d := by
        intro j hj
        rw [hgetv, hget_lt j hj]
        exact lt_of_lt_of_le hlt (hmin j hj)
      have hres := ih (acc ++ [v]) acc.length hbi' hmin' hfirst'
      rw [hrw, happ]
      exact hres
    · have hbv : (acc ++ [v]).getD bi d = acc.getD bi d := hget_lt bi hbi
      have hrw : idxminGo (v :: vs) acc.length bi (acc.getD bi d) =
          idxminGo vs (acc ++ [v]).length bi ((acc ++ [v]).getD bi d) := by
        rw [hacc1, hbv]
        simp only [idxminGo, if_neg hlt]
      have hbi' : bi < (acc ++ [v]).length := by
        rw [hacc1]
        exact Nat.lt_succ_of_lt hbi
      have hmin' : ∀ j, j < (acc ++ [v]).length →
          (acc ++ [v]).getD bi d ≤ (acc ++ [v]).getD j d := by
        intro j hj
        rw [hbv]
        rw [hacc1] at hj
        rcases Nat.lt_succ_iff_lt_or_eq.mp hj with hj' | rfl
        · rw [hget_lt j hj']
          exact hmin j hj'
        · rw [hgetv]
          exact not_lt.mp hlt
      have hfirst' : ∀ j, j < bi →
          (acc ++ [v]).getD bi d < (acc ++ [v]).getD j d := by
        intro j hj
        rw [hbv, hget_lt j (Nat.lt_trans hj hbi)]
        exact hfirst j hj
      have hres := ih (acc ++ [v]) bi hbi' hmin' hfirst'
      rw [hrw, happ]
      exact hres

lemma idxmin_spec {α : Type} [LinearOrder α] (d : α) {l : List α} (hl : l ≠ []) :
    ∃ r, idxmin l = some r ∧ r < l.length ∧
      (∀ j, j < l.length → l.getD r d ≤ l.getD j d) ∧
      (∀ j, j < r → l.getD r d < l.getD j d) := by
  cases l with
  | nil => exact absurd rfl hl
  | cons v vs =>
    refine ⟨idxminGo vs 1 0 v, rfl, ?_⟩
    have hres := idxminGo_spec d vs [v] 0 (by norm_num)
      (fun j hj => by
        have hj0 : j = 0 := Nat.lt_one_iff.mp hj
        subst hj0
        exact le_refl _)
      (fun j hj => absurd hj (Nat.not_lt_zero j))
    simpa using hres

lemma distancesTo_length (p : Pt) (rows : List Row) :
    (distancesTo p rows).length = rows.length := by
  simp [distancesTo]

lemma distancesTo_getD (p : Pt) (rows : List Row) (j : ℕ) (hj : j < rows.length) :
    (distancesTo p rows).getD j 0 = lineDist p ((rows.getD j default).geom) := by
  unfold distancesTo
  rw [List.getD_eq_getElem _ 0 (by simpa using hj), List.getElem_map,
      List.getD_eq_getElem _ default hj]

lemma locateNearest_spec (p : Pt) (rows : List Row) (hne : rows ≠ []) :
    ∃ i, i < rows.length ∧
      locateNearest p rows = some (rows.getD i default).objectid ∧
      (∀ j, j < rows.length →
        lineDist p ((rows.getD i default).geom) ≤
          lineDist p ((rows.getD j default).geom)) ∧
      (∀ j, j < i →
        lineDist p ((rows.getD i default).geom) <
          lineDist p ((rows.getD j default).geom)) := by
  have hdne : distancesTo p rows ≠ [] := by
    intro h
    apply hne
    have hlen := distancesTo_length p rows
    rw [h] at hlen
    exact List.length_eq_zero.mp hlen.symm
  obtain ⟨r, hidx, hrlt, hmin, hfirst⟩ := idxmin_spec 0 hdne
  rw [distancesTo_length] at hrlt
  refine ⟨r, hrlt, ?_, ?_, ?_⟩
  · show (idxmin (distancesTo p rows)).bind (fun i => (rows[i]?).map Row.objectid) =
      some (rows.getD r default).objectid
    rw [hidx, List.getD_eq_getElem rows default hrlt]
    simp [List.getElem?_eq_getElem hrlt]
  · intro j hj
    have hle := hmin j (by rwa [distancesTo_length])
    rwa [distancesTo_getD p rows r hrlt, distancesTo_getD p rows j hj] at hle
  · intro j hj
    have hjlt : j < rows.length := Nat.lt_trans hj hrlt
    have hlt := hfirst j hj
    rwa [distancesTo_getD p rows r hrlt, distancesTo_getD p rows j hjlt] at hlt

lemma distancesTo_mergeCounts (p : Pt) (edges : List Edge) (row : TimeRow) :
    distancesTo p (mergeCounts edges row) = edges.map fun e => lineDist p e.geom := by
  simp only [distancesTo, mergeCounts, List.map_map]
  rfl

lemma mergeCounts_objectid_getElem (edges : List Edge) (row : TimeRow) (i : ℕ) :
    ((mergeCounts edges row)[i]?).map Row.objectid = (edges[i]?).map Edge.objectid := by
  simp only [mergeCounts, List.getElem?_map, Option.map_map]
  rfl

lemma edgesProjected_objectid_getElem (toCRS : String → Pt → Pt) (edges : List Edge)
    (i : ℕ) :
    ((edgesProjected toCRS edges)[i]?).map Edge.objectid = (edges[i]?).map Edge.objectid := by
  simp only [edgesProjected, List.getElem?_map, Option.map_map]
  rfl

end LocatorLemmas

/-- C3 (amended) --- range ordering for the computation of lines 84-94:
on nonnegative post-transform values (counts are nonnegative, and log1p
keeps them so) the returned range always satisfies `vmin ≤ vmax`; with
clipping enabled, `vmax` never exceeds `max(values)`, and `vmin ≥
min(values)` holds whenever the degenerate correction of lines 93-94 did
not fire --- when it fires, `vmin` is forced to 0, which can lie below
`min(values)`. -/
theorem range_monotone_amended (counts : List ℝ) (clip lg : Bool)
    (hne : valsOf counts lg ≠ [])
    (hnn : ∀ x ∈ valsOf counts lg, 0 ≤ x) :
    (computeRange counts clip lg).1 ≤ (computeRange counts clip lg).2 ∧
    (clip = true → (computeRange counts clip lg).2 ≤ listMax (valsOf counts lg)) ∧
    (clip = true →
      (rawRange (valsOf counts lg) clip).1 ≠ (rawRange (valsOf counts lg) clip).2 →
      listMin (valsOf counts lg) ≤ (computeRange counts clip lg).1) := by
  rw [computeRange_eq]
  have hmin0 : 0 ≤ listMin (valsOf counts lg) := hnn _ (listMin_mem hne)
  cases clip with
  | false =>
    refine ⟨?_, ?_, ?_⟩
    · by_cases heq : (rawRange (valsOf counts lg) false).1 =
          (rawRange (valsOf counts lg) false).2
      · simp only [rangeOfVals, if_pos heq]
        show (0:ℝ) ≤ (rawRange (valsOf counts lg) false).2
        rw [rawRange_false]
        exact le_trans hmin0 (listMin_le_listMax hne)
      · simp only [rangeOfVals, if_neg heq]
        rw [rawRange_false]
        exact listMin_le_listMax hne
    · intro hcl; simp at hcl
    · intro hcl; simp at hcl
  | true =>
    have hq1 := quantile_bounds (l := valsOf counts lg) (p := 1 / 100) hne
      (by norm_num) (by norm_num)
    have hq99 := quantile_bounds (l := valsOf counts lg) (p := 99 / 100) hne
      (by norm_num) (by norm_num)
    have hmono : quantile (valsOf counts lg) (1 / 100) ≤
        quantile (valsOf counts lg) (99 / 100) :=
      quantile_mono_p hne (by norm_num) (by norm_num) (by norm_num)
    by_cases heq : (rawRange (valsOf counts lg) true).1 =
        (rawRange (valsOf counts lg) true).2
    · simp only [rangeOfVals, if_pos heq]
      refine ⟨?_, ?_, ?_⟩
      · show (0:ℝ) ≤ (rawRange (valsOf counts lg) true).2
        rw [rawRange_true]
        exact le_trans hmin0 (le_trans hq1.1 hmono)
      · intro _
        show (rawRange (valsOf counts lg) true).2 ≤ listMax (valsOf counts lg)
        rw [rawRange_true]
        exact hq99.2
      · intro _ hneq
        exact absurd heq hneq
    · simp only [rangeOfVals, if_neg heq]
      refine ⟨?_, ?_, ?_⟩
      · rw [rawRange_true]
        exact hmono
      · intro _
        rw [rawRange_true]
        exact hq99.2
      · intro _ _
        rw [rawRange_true]
        exact hq1.1

/-- Witness for C3 (amended) at the concrete values [1, 2] with clipping
and no log transform. -/
theorem range_monotone_amended_witness :
    (valsOf [(1:ℝ), 2] false ≠ [] ∧ ∀ x ∈ valsOf [(1:ℝ), 2] false, 0 ≤ x) ∧
    (computeRange [(1:ℝ), 2] true false).1 ≤ (computeRange [(1:ℝ), 2] true false).2 := by
  have h1 : valsOf [(1:ℝ), 2] false ≠ [] := by simp [valsOf]
  have h2 : ∀ x ∈ valsOf [(1:ℝ), 2] false, 0 ≤ x := by
    intro x hx
    simp only [valsOf, if_neg (by simp : ¬ false = true)] at hx
    rcases List.mem_cons.mp hx with rfl | hx'
    · norm_num
    · rcases List.mem_cons.mp hx' with rfl | hx''
      · norm_num
      · cases hx''
  exact ⟨⟨h1, h2⟩, (range_monotone_amended [(1:ℝ), 2] true false h1 h2).1⟩

/-- C3 counterexample: with clipping enabled on the single value 5 (no
log transform), both clip quantiles equal 5, the degenerate correction of
lines 93-94 fires, and the returned vmin is 0 --- strictly below
`min(values) = 5`, refuting the claim that enabling clipping guarantees
`vmin ≥ min(values)` after the computation completes. -/
theorem range_clip_counterexample :
    computeRange [(5:ℝ)] true false = (0, 5) ∧
    ¬ listMin (valsOf [(5:ℝ)] false) ≤ (computeRange [(5:ℝ)] true false).1 := by
  have hv : valsOf [(5:ℝ)] false = [(5:ℝ)] := by simp [valsOf]
  have hcr : computeRange [(5:ℝ)] true false = (0, 5) := by
    rw [computeRange_eq, hv]
    simp only [rangeOfVals, rawRange_true, quantile_singleton]
    norm_num
  refine ⟨hcr, ?_⟩
  rw [hcr, hv]
  have hm : listMin [(5:ℝ)] = 5 := by simp [listMin]
  rw [hm]
  norm_num

/-- C5 --- degenerate-range policy (lines 93-94): whenever the raw range
computed at lines 87-92 has `vmin = vmax`, the returned `vmin` is forced
to 0.0; in particular every constant input sequence, under either flag,
yields `vmin = 0.0`. -/
theorem degenerate_range_zero :
    (∀ (counts : List ℝ) (clip lg : Bool),
        (rawRange (valsOf counts lg) clip).1 = (rawRange (valsOf counts lg) clip).2 →
        (computeRange counts clip lg).1 = 0) ∧
    (∀ (counts : List ℝ) (c : ℝ) (clip lg : Bool), counts ≠ [] →
        (∀ x ∈ counts, x = c) → (computeRange counts clip lg).1 = 0) := by
  have main : ∀ (counts : List ℝ) (clip lg : Bool),
      (rawRange (valsOf counts lg) clip).1 = (rawRange (valsOf counts lg) clip).2 →
      (computeRange counts clip lg).1 = 0 := by
    intro counts clip lg h
    rw [computeRange_eq]
    simp only [rangeOfVals, if_pos h]
  refine ⟨main, ?_⟩
  intro counts c clip lg hne hall
  apply main
  have hvne : valsOf counts lg ≠ [] := valsOf_ne_nil hne
  have hconst : ∃ d, ∀ x ∈ valsOf counts lg, x = d := by
    cases lg with
    | false => exact ⟨c, by simpa [valsOf] using hall⟩
    | true =>
      refine ⟨log1p c, ?_⟩
      intro x hx
      simp only [valsOf, if_pos rfl] at hx
      rcases List.mem_map.mp hx with ⟨y, hy, rfl⟩
      rw [hall y hy]
  obtain ⟨d, hd⟩ := hconst
  rw [rawRange_const hvne hd clip]

/-- Witness for C5: the raw range of the single value 2 is degenerate and
the returned vmin is 0; likewise for the constant list [3, 3]. -/
theorem degenerate_range_zero_witness :
    ((rawRange (valsOf [(2:ℝ)] false) false).1 =
        (rawRange (valsOf [(2:ℝ)] false) false).2 ∧
      (computeRange [(2:ℝ)] false false).1 = 0) ∧
    (([(3:ℝ), 3] : List ℝ) ≠ [] ∧ (∀ x ∈ [(3:ℝ), 3], x = 3) ∧
      (computeRange [(3:ℝ), 3] false false).1 = 0) := by
  have hr : (rawRange (valsOf [(2:ℝ)] false) false).1 =
      (rawRange (valsOf [(2:ℝ)] false) false).2 := by
    simp [rawRange_false, valsOf, listMin, listMax]
  have hall : ∀ x ∈ [(3:ℝ), 3], x = 3 := by
    intro x hx
    rcases List.mem_cons.mp hx with rfl | hx'
    · rfl
    · rcases List.mem_cons.mp hx' with rfl | hx''
      · rfl
      · cases hx''
  refine ⟨⟨hr, degenerate_range_zero.1 [(2:ℝ)] false false hr⟩, ?_⟩
  exact ⟨by simp, hall,
    degenerate_range_zero.2 [(3:ℝ), 3] 3 false false (by simp) hall⟩

/-- C7 --- log-transform placement (line 84): with the toggle on, the
whole range computation (quantiles, min, max and the correction) runs on
`ln(1 + x)` of every count; with it off, it runs on the raw counts. -/
theorem log_transform_first (counts : List ℝ) (clip : Bool) :
    computeRange counts clip true =
      rangeOfVals (counts.map fun x => Real.log (1 + x)) clip ∧
    computeRange counts clip false = rangeOfVals counts clip := by
  constructor
  · rw [computeRange_eq]
    unfold valsOf log1p
    simp
  · rw [computeRange_eq]
    unfold valsOf
    simp

/-- C2 --- join completeness of the timestep merge (lines 75-82): for a
timestamp of the table and the table's row there, the slice has exactly
one entry per OBJECTID of the geometry set; that entry carries the row's
value at that OBJECTID when such a column exists, else 0.0. -/
theorem slice_join_complete (table : TimeSeriesTable) (edges : List Edge)
    (τ : ℚ) (r : TimeRow)
    (hmem : (τ, r) ∈ table)
    (htu : (table.map Prod.fst).Nodup)
    (heu : (edges.map Edge.objectid).Nodup)
    (hru : (r.map Prod.fst).Nodup) :
    (∀ s ∈ edges.map Edge.objectid,
        ((computeSlice table edges τ).map Prod.fst).count s = 1) ∧
    (∀ s v, s ∈ edges.map Edge.objectid → (s, v) ∈ r →
        (s, v) ∈ computeSlice table edges τ) ∧
    (∀ s, s ∈ edges.map Edge.objectid → s ∉ r.map Prod.fst →
        (s, (0:ℚ)) ∈ computeSlice table edges τ) := by
  have hslice : computeSlice table edges τ =
      edges.map fun e => (e.objectid, (lookupKey e.objectid r).getD 0) := by
    simp [computeSlice, mergeCounts, rowFor_eq hmem htu]
  have hkeys : (computeSlice table edges τ).map Prod.fst = edges.map Edge.objectid := by
    rw [hslice, List.map_map]
    rfl
  refine ⟨?_, ?_, ?_⟩
  · intro s hs
    rw [hkeys]
    exact List.count_eq_one_of_mem heu hs
  · intro s v hs hsv
    rcases List.mem_map.mp hs with ⟨e, he, rfl⟩
    rw [hslice]
    refine List.mem_map.mpr ⟨e, he, ?_⟩
    rw [lookupKey_eq_some_of_mem_nodup hsv hru]
    rfl
  · intro s hs hnot
    rcases List.mem_map.mp hs with ⟨e, he, rfl⟩
    rw [hslice]
    refine List.mem_map.mpr ⟨e, he, ?_⟩
    rw [lookupKey_eq_none_of_not_mem hnot]
    rfl

/-- Witness for C2: a one-row table with a column for edge 10 only, and a
geometry set with edges 10 and 20; the slice joins 5 onto edge 10 and
defaults edge 20 to 0. -/
theorem slice_join_complete_witness :
    (((1:ℚ), [((10:ℤ), (5:ℚ))]) ∈ ([((1:ℚ), [((10:ℤ), (5:ℚ))])] : TimeSeriesTable)) ∧
    ((10:ℤ), (5:ℚ)) ∈ computeSlice [((1:ℚ), [((10:ℤ), (5:ℚ))])]
        [Edge.mk 10 [], Edge.mk 20 []] 1 ∧
    ((20:ℤ), (0:ℚ)) ∈ computeSlice [((1:ℚ), [((10:ℤ), (5:ℚ))])]
        [Edge.mk 10 [], Edge.mk 20 []] 1 := by
  refine ⟨by decide, ?_, ?_⟩
  · exact (slice_join_complete [((1:ℚ), [((10:ℤ), (5:ℚ))])]
      [Edge.mk 10 [], Edge.mk 20 []] 1 [((10:ℤ), (5:ℚ))]
      (by decide) (by decide) (by decide) (by decide)).2.1 10 5 (by decide) (by decide)
  · exact (slice_join_complete [((1:ℚ), [((10:ℤ), (5:ℚ))])]
      [Edge.mk 10 [], Edge.mk 20 []] 1 [((10:ℤ), (5:ℚ))]
      (by decide) (by decide) (by decide) (by decide)).2.2 20 (by decide) (by decide)

/-- C6 --- the selection state machine of lines 147-150: a lookup result
differing from the current selection transitions to it and signals a
refresh; a lookup result equal to the current selection leaves the state
unchanged and signals nothing, so two consecutive lookups returning the
same id cause exactly one transition. -/
theorem selection_idempotent (current : Option ℤ) (objid : ℤ)
    (h : current ≠ some objid) :
    selectionStep current objid = (some objid, true) ∧
    selectionStep (selectionStep current objid).1 objid = (some objid, false) := by
  have h' : ¬ some objid = current := fun he => h he.symm
  constructor
  · simp [selectionStep, h']
  · simp [selectionStep, h']

/-- Witness for C6 at a concrete state: no current selection, clicked edge 7. -/
theorem selection_idempotent_witness :
    (none : Option ℤ) ≠ some 7 ∧
    selectionStep none 7 = (some 7, true) ∧
    selectionStep (selectionStep none 7).1 7 = (some 7, false) := by
  refine ⟨by simp, ?_, ?_⟩
  · exact (selection_idempotent none 7 (by simp)).1
  · exact (selection_idempotent none 7 (by simp)).2

/-- C1 (amended) --- nearest-neighbor tie-break (lines 136-145):
`distances.idxmin()` returns the first row label attaining the minimal
distance, so when several segments tie the lookup returns the OBJECTID of
the tied segment at the lowest row position of the geometry set --- not
necessarily the lowest OBJECTID --- and, being a pure function of the
click and the geometry set, it returns the same id on repeated calls. -/
theorem nearest_tie_first_position (p : Pt) (rows : List Row) (hne : rows ≠ []) :
    ∃ i, i < rows.length ∧
      locateNearest p rows = some (rows.getD i default).objectid ∧
      (∀ j, j < rows.length →
        lineDist p ((rows.getD i default).geom) ≤
          lineDist p ((rows.getD j default).geom)) ∧
      (∀ j, j < i →
        lineDist p ((rows.getD i default).geom) <
          lineDist p ((rows.getD j default).geom)) :=
  locateNearest_spec p rows hne

/-- Witness for C1 (amended) at a one-row geometry set. -/
theorem nearest_tie_first_position_witness :
    (([(⟨7, [⟨0, 0⟩], 0⟩ : Row)]) ≠ []) ∧
    (∃ i, i < ([(⟨7, [⟨0, 0⟩], 0⟩ : Row)]).length ∧
      locateNearest ⟨0, 0⟩ [⟨7, [⟨0, 0⟩], 0⟩] =
        some ((([(⟨7, [⟨0, 0⟩], 0⟩ : Row)]).getD i default).objectid) ∧
      (∀ j, j < ([(⟨7, [⟨0, 0⟩], 0⟩ : Row)]).length →
        lineDist ⟨0, 0⟩ ((([(⟨7, [⟨0, 0⟩], 0⟩ : Row)]).getD i default).geom) ≤
          lineDist ⟨0, 0⟩ ((([(⟨7, [⟨0, 0⟩], 0⟩ : Row)]).getD j default).geom)) ∧
      (∀ j, j < i →
        lineDist ⟨0, 0⟩ ((([(⟨7, [⟨0, 0⟩], 0⟩ : Row)]).getD i default).geom) <
          lineDist ⟨0, 0⟩ ((([(⟨7, [⟨0, 0⟩], 0⟩ : Row)]).getD j default).geom))) :=
  ⟨by simp, nearest_tie_first_position ⟨0, 0⟩ [⟨7, [⟨0, 0⟩], 0⟩] (by simp)⟩

/-- C1 counterexample: two segments tied at distance 1 from the origin
click; the geometry set lists OBJECTID 5 first and OBJECTID 2 second, and
the lookup returns 5 --- the first row --- not the lowest id 2, refuting
the lowest-segment-id tie-break. -/
theorem nearest_tie_counterexample :
    lineDist ⟨0, 0⟩ [⟨1, 0⟩, ⟨2, 0⟩] = lineDist ⟨0, 0⟩ [⟨-1, 0⟩, ⟨-2, 0⟩] ∧
    locateNearest ⟨0, 0⟩
      [⟨5, [⟨1, 0⟩, ⟨2, 0⟩], 0⟩, ⟨2, [⟨-1, 0⟩, ⟨-2, 0⟩], 0⟩] = some 5 ∧
    ¬ locateNearest ⟨0, 0⟩
      [⟨5, [⟨1, 0⟩, ⟨2, 0⟩], 0⟩, ⟨2, [⟨-1, 0⟩, ⟨-2, 0⟩], 0⟩] = some 2 := by
  have hd1 : lineDist ⟨0, 0⟩ [⟨1, 0⟩, ⟨2, 0⟩] = 1 := by
    show ptSegDist ⟨0, 0⟩ ⟨1, 0⟩ ⟨2, 0⟩ = 1
    simp only [ptSegDist, ptDist]
    norm_num [min_def, max_def, Real.sqrt_one]
  have hd2 : lineDist ⟨0, 0⟩ [⟨-1, 0⟩, ⟨-2, 0⟩] = 1 := by
    show ptSegDist ⟨0, 0⟩ ⟨-1, 0⟩ ⟨-2, 0⟩ = 1
    simp only [ptSegDist, ptDist]
    norm_num [min_def, max_def, Real.sqrt_one]
  have hloc : locateNearest ⟨0, 0⟩
      [⟨5, [⟨1, 0⟩, ⟨2, 0⟩], 0⟩, ⟨2, [⟨-1, 0⟩, ⟨-2, 0⟩], 0⟩] = some 5 := by
    show (idxmin (distancesTo ⟨0, 0⟩
        [⟨5, [⟨1, 0⟩, ⟨2, 0⟩], 0⟩, ⟨2, [⟨-1, 0⟩, ⟨-2, 0⟩], 0⟩])).bind
      (fun i => (([(⟨5, [⟨1, 0⟩, ⟨2, 0⟩], 0⟩ : Row),
        ⟨2, [⟨-1, 0⟩, ⟨-2, 0⟩], 0⟩])[i]?).map Row.objectid) = some 5
    have hdist : distancesTo ⟨0, 0⟩
        [⟨5, [⟨1, 0⟩, ⟨2, 0⟩], 0⟩, ⟨2, [⟨-1, 0⟩, ⟨-2, 0⟩], 0⟩] = [1, 1] := by
      simp [distancesTo]
      exact ⟨hd1, hd2⟩
    rw [hdist]
    have hmin : idxmin ([1, 1] : List ℝ) = some 0 := by
      simp [idxmin, idxminGo]
    rw [hmin]
    rfl
  exact ⟨hd1.trans hd2.symm, hloc, by rw [hloc]; simp⟩

/-- C9 --- totality and failure of the nearest lookup (lines 136-141):
with an empty geometry set `idxmin` has no label to return (pandas raises
ValueError, modelled as `none`), so no default id is ever produced; with
a non-empty geometry set exactly one OBJECTID is returned. -/
theorem nearest_total_or_fault (p : Pt) (rows : List Row) :
    (rows = [] → locateNearest p rows = none) ∧
    (rows ≠ [] → ∃ objid, locateNearest p rows = some objid) := by
  constructor
  · intro h
    subst h
    rfl
  · intro h
    obtain ⟨i, _, hloc, _, _⟩ := locateNearest_spec p rows h
    exact ⟨_, hloc⟩

/-- Witness for C9: the empty geometry set gives `none`, a one-row set
gives an id. -/
theorem nearest_total_or_fault_witness :
    locateNearest ⟨0, 0⟩ [] = none ∧
    (([(⟨7, [⟨0, 0⟩], 0⟩ : Row)]) ≠ []) ∧
    (∃ objid, locateNearest ⟨0, 0⟩ [(⟨7, [⟨0, 0⟩], 0⟩ : Row)] = some objid) :=
  ⟨(nearest_total_or_fault ⟨0, 0⟩ []).1 rfl, by simp,
    (nearest_total_or_fault ⟨0, 0⟩ [⟨7, [⟨0, 0⟩], 0⟩]).2 (by simp)⟩

lemma locateNearestPipeline_factors (toCRS : String → Pt → Pt) (edges : List Edge)
    (row : TimeRow) (lon lat : ℝ) :
    locateNearestPipeline toCRS edges row lon lat =
      locateNearest (toCRS planarCRS ⟨lon, lat⟩)
        (mergeCounts (edgesProjected toCRS edges) row) := by
  simp only [locateNearestPipeline, locateNearest]
  have hfun : (fun i : ℕ => ((mergeCounts edges row)[i]?).map Row.objectid) =
      fun i : ℕ => ((mergeCounts (edgesProjected toCRS edges) row)[i]?).map Row.objectid := by
    funext i
    rw [mergeCounts_objectid_getElem, mergeCounts_objectid_getElem,
      edgesProjected_objectid_getElem]
  rw [hfun]

/-- C4 --- projected-distance discipline (lines 28-30 and 127-141): the
lookup ranks segments by Euclidean distance between the click point
reprojected to `planarCRS` (EPSG:2240) and the segment geometries
reprojected to the same `planarCRS`, and its outcome depends on the click
and the geometries only through those planar images, never on the raw
longitude/latitude coordinates. -/
theorem nearest_uses_projected_crs (toCRS toCRS2 : String → Pt → Pt)
    (edges edges2 : List Edge) (row : TimeRow) (lon lat lon2 lat2 : ℝ)
    (hids : edges.map Edge.objectid = edges2.map Edge.objectid)
    (hgeom : edgesProjected toCRS edges = edgesProjected toCRS2 edges2)
    (hclick : toCRS planarCRS ⟨lon, lat⟩ = toCRS2 planarCRS ⟨lon2, lat2⟩) :
    locateNearestPipeline toCRS edges row lon lat =
      locateNearest (toCRS planarCRS ⟨lon, lat⟩)
        (mergeCounts (edgesProjected toCRS edges) row) ∧
    locateNearestPipeline toCRS edges row lon lat =
      locateNearestPipeline toCRS2 edges2 row lon2 lat2 := by
  refine ⟨locateNearestPipeline_factors toCRS edges row lon lat, ?_⟩
  rw [locateNearestPipeline_factors toCRS edges row lon lat,
    locateNearestPipeline_factors toCRS2 edges2 row lon2 lat2, hclick, hgeom]

/-- Witness for C4 with the identity transform family on a one-edge set. -/
theorem nearest_uses_projected_crs_witness :
    (([(⟨5, [⟨0, 0⟩]⟩ : Edge)]).map Edge.objectid =
        ([(⟨5, [⟨0, 0⟩]⟩ : Edge)]).map Edge.objectid) ∧
    (edgesProjected (fun _ q => q) [(⟨5, [⟨0, 0⟩]⟩ : Edge)] =
        edgesProjected (fun _ q => q) [(⟨5, [⟨0, 0⟩]⟩ : Edge)]) ∧
    ((fun _ q => q : String → Pt → Pt) planarCRS ⟨1, 2⟩ =
        (fun _ q => q : String → Pt → Pt) planarCRS ⟨1, 2⟩) ∧
    locateNearestPipeline (fun _ q => q) [(⟨5, [⟨0, 0⟩]⟩ : Edge)] [] 1 2 =
      locateNearest ((fun _ q => q : String → Pt → Pt) planarCRS ⟨1, 2⟩)
        (mergeCounts (edgesProjected (fun _ q => q) [(⟨5, [⟨0, 0⟩]⟩ : Edge)]) []) :=
  ⟨rfl, rfl, rfl,
    (nearest_uses_projected_crs (fun _ q => q) (fun _ q => q)
      [(⟨5, [⟨0, 0⟩]⟩ : Edge)] [(⟨5, [⟨0, 0⟩]⟩ : Edge)] [] 1 2 1 2 rfl rfl rfl).1⟩

/-- C10 --- noninterference of the selected timestamp with the click
lookup (lines 81-82 and 136-144): running the lookup on the frames merged
for two timestamps of the same table (hence with different joined count
values) returns the same OBJECTID --- the distances read only the
geometry column and the returned id only the row order, never counts. -/
theorem nearest_independent_of_timestamp (toCRS : String → Pt → Pt)
    (edges : List Edge) (table : TimeSeriesTable) (t1 t2 : ℚ) (lon lat : ℝ)
    (h1 : t1 ∈ table.map Prod.fst) (h2 : t2 ∈ table.map Prod.fst) :
    locateNearestPipeline toCRS edges (rowFor table t1) lon lat =
      locateNearestPipeline toCRS edges (rowFor table t2) lon lat := by
  rw [locateNearestPipeline_factors, locateNearestPipeline_factors]
  simp only [locateNearest]
  rw [distancesTo_mergeCounts, distancesTo_mergeCounts]
  have hfun : ∀ r : TimeRow,
      (fun i : ℕ => ((mergeCounts (edgesProjected toCRS edges) r)[i]?).map Row.objectid) =
        fun i : ℕ => ((edgesProjected toCRS edges)[i]?).map Edge.objectid := by
    intro r
    funext i
    rw [mergeCounts_objectid_getElem]
  rw [hfun (rowFor table t1), hfun (rowFor table t2)]

/-- Witness for C10: a two-timestamp table whose second row carries a
count for the only edge; both timestamps select the same edge. -/
theorem nearest_independent_of_timestamp_witness :
    ((0:ℚ) ∈ ([((0:ℚ), ([] : TimeRow)), ((1:ℚ), [((5:ℤ), (9:ℚ))])] :
        TimeSeriesTable).map Prod.fst) ∧
    ((1:ℚ) ∈ ([((0:ℚ), ([] : TimeRow)), ((1:ℚ), [((5:ℤ), (9:ℚ))])] :
        TimeSeriesTable).map Prod.fst) ∧
    locateNearestPipeline (fun _ q => q) [(⟨5, [⟨0, 0⟩]⟩ : Edge)]
        (rowFor [((0:ℚ), ([] : TimeRow)), ((1:ℚ), [((5:ℤ), (9:ℚ))])] 0) 1 2 =
      locateNearestPipeline (fun _ q => q) [(⟨5, [⟨0, 0⟩]⟩ : Edge)]
        (rowFor [((0:ℚ), ([] : TimeRow)), ((1:ℚ), [((5:ℤ), (9:ℚ))])] 1) 1 2 :=
  ⟨by decide, by decide,
    nearest_independent_of_timestamp (fun _ q => q) [(⟨5, [⟨0, 0⟩]⟩ : Edge)]
      [((0:ℚ), ([] : TimeRow)), ((1:ℚ), [((5:ℤ), (9:ℚ))])] 0 1 1 2
      (by decide) (by decide)⟩

/-- C8 --- empty-table guard (lines 43-45): a run of the script halts via
`st.stop` exactly when the time-series table has zero rows, and the
halted outcome carries no slice, no range and no selection --- none of
the downstream components is reached. -/
theorem empty_table_halts (toCRS : String → Pt → Pt) (table : TimeSeriesTable)
    (edges : List Edge) (timeChoice : ℚ) (clip lg : Bool)
    (click : Option (ℝ × ℝ)) (state : Option ℤ) :
    runSession toCRS table edges timeChoice clip lg click state = Outcome.halted ↔
      table = [] := by
  by_cases h : table = []
  · simp [runSession, h]
  · simp [runSession, h]

/-- Witness for C8: a run over the empty table halts. -/
theorem empty_table_halts_witness :
    runSession (fun _ q => q) [] [] 0 false false none none = Outcome.halted :=
  (empty_table_halts (fun _ q => q) [] [] 0 false false none none).mpr rfl

end MovementModel
